import Mathlib

/-!
Verification of the TELNET state machine in `src/telnet/state.rs` of
`its-laika/telnet_server`.  The Rust `State` struct and its byte-by-byte
decoder are embedded shallowly: bytes are `Nat` (the code only compares
bytes and moves them around, so no modular arithmetic is needed),
`Vec<u8>` is `List Nat`, the fallible handlers return
`Except Error (Option (List Nat) × State)` mirroring
`Result<Option<Bytes>, Error>` on a mutable `self`.
-/

namespace Telnet

/-! ## Byte protocol constants (src/telnet/state.rs, lines 7-54) -/

def ECHO : Nat := 1
def ERASE_LINE : Nat := 248
def BEL : Nat := 7
def CHAR_BACK_SPACE : Nat := 8
def CHAR_ESCAPE : Nat := 27
def CHAR_DELETE : Nat := 127
def CHAR_ERASE : Nat := 247
def IAC : Nat := 255
def IAC_SUBNEGOTIATION_START : Nat := 250
def IAC_SUBNEGOTIATION_END : Nat := 240
def IAC_WILL : Nat := 251
def IAC_WONT : Nat := 252
def IAC_DO : Nat := 253
def IAC_DONT : Nat := 254

/-- `ANSI_SEQUENCE_ERASE_LINE = [CHAR_ESCAPE, 91, 50, 75, 13]`, i.e.
`ESC [ 2 K \r`. -/
def ANSI_SEQUENCE_ERASE_LINE : List Nat := [CHAR_ESCAPE, 91, 50, 75, 13]

/-- Code points of `CHARS_ESCAPE_SEQUENCE_END`
(`A B C D E F G H J K S T f m i n s u h l`); the Rust code compares
`next as char` against this list, which for `u8` is a comparison of code
points. -/
def CHARS_ESCAPE_SEQUENCE_END : List Nat :=
  [65, 66, 67, 68, 69, 70, 71, 72, 74, 75, 83, 84, 102, 109, 105, 110, 115, 117, 104, 108]

/-- `CHARS_LINE_BREAK = [b'\r', b'\n']`. -/
def CHARS_LINE_BREAK : List Nat := [13, 10]

/-! ## Data model -/

/-- `Mode` enumeration (src/telnet/state.rs, lines 93-112). -/
inductive Mode where
  | Idle
  | Command
  | CommandWill
  | CommandWont
  | CommandDo
  | CommandDont
  | SubNegotiation
  | AnsiEscapeSequence
deriving DecidableEq

/-- Kind of a `std::io::Error`; the state machine only ever constructs
`InvalidInput`. -/
inductive ErrorKind where
  | InvalidInput
deriving DecidableEq

/-- Shallow model of the `std::io::Error` built in `next_as_command`:
its kind together with the offending byte named in the message
`format!("Unknown command '{next}'")`. -/
structure Error where
  kind : ErrorKind
  offending : Nat
deriving DecidableEq

/-- The `State` struct (src/telnet/state.rs, lines 68-81). -/
structure State where
  output_buffer : List Nat
  mode : Mode
  is_echoing : Bool
  handle_ansi_escape_sequences : Bool
deriving DecidableEq

/-- The `StateConfig` struct (src/telnet/state.rs, lines 85-90). -/
structure StateConfig where
  handle_ansi_escape_sequences : Bool
deriving DecidableEq

/-- `State::new` (src/telnet/state.rs, lines 134-141). -/
def State.new (config : StateConfig) : State :=
  { output_buffer := []
    mode := Mode.Idle
    is_echoing := false
    handle_ansi_escape_sequences := config.handle_ansi_escape_sequences }

/-- Result type of one handler call: `Result<Option<Bytes>, Error>`
paired with the successor state (the Rust handlers mutate `self`). -/
abbrev StepResult := Except Error (Option (List Nat) × State)

/-! ## The helper from `crate::iter` -/

/-- Modelled from the spec: `contains_sequence` lives in `crate::iter`,
which is not part of the provided sources.  Per its name and the spec's
description of the erase loop ("the last two bytes form the sequence
`CR LF`"), `contains_sequence haystack needle` holds when `needle` occurs
as a contiguous subsequence of `haystack`.  `erase_current_line` only ever
calls it with a two-byte haystack, where this is equality with the needle. -/
def contains_sequence (haystack needle : List Nat) : Bool :=
  match haystack with
  | [] => needle.isEmpty
  | _ :: t => needle.isPrefixOf haystack || contains_sequence t needle

/-! ## erase_current_line -/

/-- `State::erase_current_line` (src/telnet/state.rs, lines 419-436):
pop the tail of the buffer until it has fewer than 2 bytes (then clear)
or its last two bytes are `CR LF`. -/
def erase_current_line (buffer : List Nat) : List Nat :=
  if buffer.length < 2 then
    []
  else if contains_sequence (buffer.drop (buffer.length - 2)) CHARS_LINE_BREAK then
    buffer
  else
    erase_current_line buffer.dropLast
termination_by buffer.length
decreasing_by
  simp [List.length_dropLast]
  omega

/-! ## The per-mode handlers -/

/-- `State::next_on_idle` (src/telnet/state.rs, lines 214-255). -/
def next_on_idle (s : State) (next : Nat) : StepResult :=
  if next = IAC then
    .ok (none, { s with mode := Mode.Command })
  else if next = CHAR_DELETE ∨ next = CHAR_BACK_SPACE ∨ next = CHAR_ERASE then
    let s1 := { s with output_buffer := s.output_buffer.dropLast }
    if s1.is_echoing then
      .ok (some [CHAR_BACK_SPACE, 32, CHAR_BACK_SPACE], s1)
    else
      .ok (none, s1)
  else if next = ERASE_LINE then
    let s1 := { s with output_buffer := erase_current_line s.output_buffer }
    if s1.is_echoing then
      .ok (some ANSI_SEQUENCE_ERASE_LINE, s1)
    else
      .ok (none, s1)
  else if next = CHAR_ESCAPE then
    let s1 := { s with mode := Mode.AnsiEscapeSequence }
    if s1.is_echoing then
      .ok (some [next], s1)
    else if s1.handle_ansi_escape_sequences then
      .ok (none, { s1 with output_buffer := s1.output_buffer ++ [next] })
    else
      .ok (none, s1)
  else
    let s1 := { s with output_buffer := s.output_buffer ++ [next] }
    if s1.is_echoing then
      .ok (some [next], s1)
    else
      .ok (none, s1)

/-- `State::next_as_command` (src/telnet/state.rs, lines 264-280). -/
def next_as_command (s : State) (next : Nat) : StepResult :=
  if next = IAC_WILL then
    .ok (none, { s with mode := Mode.CommandWill })
  else if next = IAC_WONT then
    .ok (none, { s with mode := Mode.CommandWont })
  else if next = IAC_DO then
    .ok (none, { s with mode := Mode.CommandDo })
  else if next = IAC_DONT then
    .ok (none, { s with mode := Mode.CommandDont })
  else if next = IAC_SUBNEGOTIATION_START then
    .ok (none, { s with mode := Mode.SubNegotiation })
  else
    .error { kind := ErrorKind.InvalidInput, offending := next }

/-- `State::next_as_will` (src/telnet/state.rs, lines 289-293). -/
def next_as_will (s : State) (_next : Nat) : StepResult :=
  .ok (none, { s with mode := Mode.Idle })

/-- `State::next_as_wont` (src/telnet/state.rs, lines 302-306). -/
def next_as_wont (s : State) (_next : Nat) : StepResult :=
  .ok (none, { s with mode := Mode.Idle })

/-- `State::next_as_do` (src/telnet/state.rs, lines 315-325). -/
def next_as_do (s : State) (next : Nat) : StepResult :=
  let s1 := { s with mode := Mode.Idle }
  if next = ECHO then
    .ok (some [IAC, IAC_WILL, ECHO], { s1 with is_echoing := true })
  else
    .ok (some [IAC, IAC_WONT, next], s1)

/-- `State::next_as_dont` (src/telnet/state.rs, lines 334-344). -/
def next_as_dont (s : State) (next : Nat) : StepResult :=
  let s1 := { s with mode := Mode.Idle }
  let s2 := if next = ECHO then { s1 with is_echoing := false } else s1
  .ok (some [IAC, IAC_WONT, next], s2)

/-- `State::next_as_sub_negotiation` (src/telnet/state.rs, lines 353-360). -/
def next_as_sub_negotiation (s : State) (next : Nat) : StepResult :=
  if next = IAC_SUBNEGOTIATION_END then
    .ok (none, { s with mode := Mode.Idle })
  else
    .ok (none, s)

/-- `State::next_as_escape_sequence` (src/telnet/state.rs, lines 370-392). -/
def next_as_escape_sequence (s : State) (next : Nat) : StepResult :=
  if s.handle_ansi_escape_sequences then
    let s1 := { s with output_buffer := s.output_buffer ++ [next] }
    let s2 :=
      if next ∈ CHARS_ESCAPE_SEQUENCE_END then { s1 with mode := Mode.Idle } else s1
    if s2.is_echoing then
      .ok (some [next], s2)
    else
      .ok (none, s2)
  else
    if next ∉ CHARS_ESCAPE_SEQUENCE_END then
      .ok (none, s)
    else
      .ok (some [BEL], { s with mode := Mode.Idle })

/-- The per-byte dispatch of `State::write` (src/telnet/state.rs,
lines 182-191). -/
def nextByte (s : State) (next : Nat) : StepResult :=
  match s.mode with
  | Mode.Idle => next_on_idle s next
  | Mode.Command => next_as_command s next
  | Mode.CommandWill => next_as_will s next
  | Mode.CommandWont => next_as_wont s next
  | Mode.CommandDo => next_as_do s next
  | Mode.CommandDont => next_as_dont s next
  | Mode.SubNegotiation => next_as_sub_negotiation s next
  | Mode.AnsiEscapeSequence => next_as_escape_sequence s next

/-- `Some(response)` when the accumulated response is nonempty, `None`
otherwise (src/telnet/state.rs, lines 200-204). -/
def optOfReply (l : List Nat) : Option (List Nat) := if l = [] then none else some l

/-- The bytes of an optional reply (`None` stands for no bytes). -/
def replyBytes (o : Option (List Nat)) : List Nat := o.getD []

/-- The loop of `State::write` (src/telnet/state.rs, lines 178-205) with
its `response` accumulator: on a handler error the error is returned at
once, dropping the accumulated response; otherwise per-byte replies are
concatenated. -/
def writeGo (s : State) (buf : List Nat) (response : List Nat) : StepResult :=
  match buf with
  | [] => .ok (optOfReply response, s)
  | b :: rest =>
    match nextByte s b with
    | .error e => .error e
    | .ok (some v, s1) => writeGo s1 rest (response ++ v)
    | .ok (none, s1) => writeGo s1 rest response

/-- `State::write` (src/telnet/state.rs, lines 178-205). -/
def write (s : State) (buf : List Nat) : StepResult := writeGo s buf []

/-- `impl Read for State` (src/telnet/state.rs, lines 439-449): the
destination buffer is a list; the call returns the count, the updated
destination (its first `limit` cells overwritten from the head of
`output_buffer`, the rest untouched) and the successor state.  The Rust
implementation always returns `Ok`. -/
def read (s : State) (dst : List Nat) : Except Error (Nat × List Nat × State) :=
  let limit := min dst.length s.output_buffer.length
  .ok (limit,
       s.output_buffer.take limit ++ dst.drop limit,
       { s with output_buffer := s.output_buffer.drop limit })

/-! ## Specification-side predicates -/

/-- The command bytes accepted after an `IAC` (the match arms of
`next_as_command`). -/
def cmdAllowed (b : Nat) : Prop :=
  b = IAC_WILL ∨ b = IAC_WONT ∨ b = IAC_DO ∨ b = IAC_DONT ∨ b = IAC_SUBNEGOTIATION_START

instance (b : Nat) : Decidable (cmdAllowed b) := by
  unfold cmdAllowed
  infer_instance

/-- Specification predicate for the error condition of `write`: processing
`buf` byte by byte from `s`, some byte is consumed in `Command` mode (i.e.
immediately follows an `IAC`) and is not one of the accepted command bytes.
The per-byte transition `nextByte` is only used to advance past good bytes;
the `error` branch of the match is unreachable once the first test is false. -/
def consumesBadCommandByte (s : State) : List Nat → Bool
  | [] => false
  | b :: rest =>
    if s.mode = Mode.Command ∧ ¬ cmdAllowed b then
      true
    else
      match nextByte s b with
      | .ok (_, s1) => consumesBadCommandByte s1 rest
      | .error _ => false

/-- Cleanliness invariant on a state: when ANSI handling is disabled, the
application-visible buffer holds neither an `IAC` nor an `ESC` byte. -/
def cleanBuffer (s : State) : Prop :=
  s.handle_ansi_escape_sequences = false →
    ∀ b ∈ s.output_buffer, b ≠ IAC ∧ b ≠ CHAR_ESCAPE

/-- Equality of handler results is decidable, so concrete runs of the state
machine can be checked by `decide`. -/
instance exceptDecEq {ε α : Type} [DecidableEq ε] [DecidableEq α] :
    DecidableEq (Except ε α) := fun x y =>
  match x, y with
  | .ok a, .ok b =>
    if h : a = b then isTrue (by rw [h]) else isFalse (by intro hh; cases hh; exact h rfl)
  | .error a, .error b =>
    if h : a = b then isTrue (by rw [h]) else isFalse (by intro hh; cases hh; exact h rfl)
  | .ok _, .error _ => isFalse (by intro hh; cases hh)
  | .error _, .ok _ => isFalse (by intro hh; cases hh)

/-! ## Properties of contains_sequence -/

theorem contains_sequence_iff (n : List Nat) :
    ∀ h : List Nat, contains_sequence h n = true ↔ ∃ p q, h = p ++ n ++ q := by
  intro h
  induction h with
  | nil =>
    simp only [contains_sequence, List.isEmpty_iff]
    constructor
    · intro hn
      exact ⟨[], [], by simp [hn]⟩
    · rintro ⟨p, q, hpq⟩
      rcases List.append_eq_nil.mp hpq.symm with ⟨h1, h2⟩
      rcases List.append_eq_nil.mp h1 with ⟨h3, h4⟩
      exact h4
  | cons a t ih =>
    simp only [contains_sequence, Bool.or_eq_true, List.isPrefixOf_iff_prefix, ih]
    constructor
    · rintro (⟨q, hq⟩ | ⟨p, q, rfl⟩)
      · exact ⟨[], q, by simp [hq]⟩
      · exact ⟨a :: p, q, rfl⟩
    · rintro ⟨p, q, hpq⟩
      cases p with
      | nil =>
        left
        exact ⟨q, by simpa using hpq.symm⟩
      | cons x p' =>
        right
        rw [List.cons_append] at hpq
        injection hpq with hax ht
        exact ⟨p', q, ht⟩

theorem contains_sequence_mono {m n : List Nat} (p q : List Nat)
    (h : contains_sequence m n = true) :
    contains_sequence (p ++ m ++ q) n = true := by
  obtain ⟨a, b, rfl⟩ := (contains_sequence_iff n m).mp h
  exact (contains_sequence_iff n _).mpr ⟨p ++ a, b ++ q, by simp⟩

theorem contains_sequence_pair (a b : Nat) :
    contains_sequence [a, b] CHARS_LINE_BREAK = true ↔ a = 13 ∧ b = 10 := by
  rw [contains_sequence_iff]
  constructor
  · rintro ⟨p, q, hpq⟩
    have hlen := congrArg List.length hpq
    simp [CHARS_LINE_BREAK] at hlen
    have hp : p = [] := List.eq_nil_of_length_eq_zero (by omega)
    have hq : q = [] := List.eq_nil_of_length_eq_zero (by omega)
    subst hp
    subst hq
    simp [CHARS_LINE_BREAK] at hpq
    exact hpq
  · rintro ⟨rfl, rfl⟩
    exact ⟨[], [], by simp [CHARS_LINE_BREAK]⟩

/-! ## Properties of erase_current_line -/

/-- Any list of length at least 2 splits as an initial part plus its final
two elements; the final two are what `buffer.drop (buffer.length - 2)`
inspects and the `dropLast` step removes the very last one. -/
theorem exists_concat_two {l : List Nat} (h : 2 ≤ l.length) :
    ∃ init a b, l = init ++ [a, b] := by
  rcases List.eq_nil_or_concat l with rfl | ⟨l1, b, rfl⟩
  · simp at h
  rcases List.eq_nil_or_concat l1 with rfl | ⟨init, a, rfl⟩
  · simp at h
  exact ⟨init, a, b, by simp⟩

theorem drop_len_sub_two (init : List Nat) (a b : Nat) :
    (init ++ [a, b]).drop ((init ++ [a, b]).length - 2) = [a, b] := by
  have hlen : (init ++ [a, b]).length - 2 = init.length := by
    simp
  rw [hlen, List.drop_left]

/-- Unfolding the loop of `erase_current_line`: the short-buffer exit. -/
theorem erase_small {l : List Nat} (h1 : l.length < 2) : erase_current_line l = [] := by
  rw [erase_current_line]
  simp [h1]

/-- Unfolding the loop of `erase_current_line`: the `CR LF` stop. -/
theorem erase_stop {l : List Nat} (h1 : ¬ l.length < 2)
    (h2 : contains_sequence (l.drop (l.length - 2)) CHARS_LINE_BREAK = true) :
    erase_current_line l = l := by
  rw [erase_current_line]
  simp [h1, h2]

/-- Unfolding the loop of `erase_current_line`: one pop of the tail. -/
theorem erase_pop {l : List Nat} (h1 : ¬ l.length < 2)
    (h2 : ¬ contains_sequence (l.drop (l.length - 2)) CHARS_LINE_BREAK = true) :
    erase_current_line l = erase_current_line l.dropLast := by
  rw [erase_current_line]
  simp [h1, h2]

theorem erase_current_line_nil : erase_current_line [] = [] :=
  erase_small (by simp)

/-- A buffer already ending in `CR LF` is left untouched. -/
theorem erase_append_crlf (p : List Nat) :
    erase_current_line (p ++ CHARS_LINE_BREAK) = p ++ CHARS_LINE_BREAK := by
  have hform : p ++ CHARS_LINE_BREAK = p ++ [13, 10] := by
    simp [CHARS_LINE_BREAK]
  rw [hform]
  apply erase_stop
  · simp
  · rw [drop_len_sub_two]
    decide

/-- The result of `erase_current_line` is either empty or still passes the
loop's stopping test (its last two bytes are `CR LF`). -/
theorem erase_shape (l : List Nat) :
    erase_current_line l = [] ∨
      (2 ≤ (erase_current_line l).length ∧
        contains_sequence
          ((erase_current_line l).drop ((erase_current_line l).length - 2))
          CHARS_LINE_BREAK = true) := by
  by_cases h1 : l.length < 2
  · left
    rw [erase_current_line]
    simp [h1]
  · by_cases h2 : contains_sequence (l.drop (l.length - 2)) CHARS_LINE_BREAK = true
    · right
      have he : erase_current_line l = l := by
        rw [erase_current_line]
        simp [h1, h2]
      rw [he]
      exact ⟨by omega, h2⟩
    · have he : erase_current_line l = erase_current_line l.dropLast := by
        rw [erase_current_line]
        simp [h1, h2]
      rw [he]
      exact erase_shape l.dropLast
termination_by l.length
decreasing_by
  simp [List.length_dropLast]
  omega

/-- Every byte of the erased buffer was already in the buffer. -/
theorem erase_subset (l : List Nat) : ∀ b ∈ erase_current_line l, b ∈ l := by
  by_cases h1 : l.length < 2
  · rw [erase_current_line]
    simp [h1]
  · by_cases h2 : contains_sequence (l.drop (l.length - 2)) CHARS_LINE_BREAK = true
    · have he : erase_current_line l = l := by
        rw [erase_current_line]
        simp [h1, h2]
      rw [he]
      exact fun b hb => hb
    · have he : erase_current_line l = erase_current_line l.dropLast := by
        rw [erase_current_line]
        simp [h1, h2]
      rw [he]
      intro b hb
      exact (List.dropLast_sublist l).subset (erase_subset l.dropLast b hb)
termination_by l.length
decreasing_by
  simp [List.length_dropLast]
  omega

/-- A buffer with no adjacent `CR LF` pair is erased entirely. -/
theorem erase_no_crlf (l : List Nat)
    (h : contains_sequence l CHARS_LINE_BREAK = false) :
    erase_current_line l = [] := by
  by_cases h1 : l.length < 2
  · exact erase_small h1
  · have h2 : ¬ contains_sequence (l.drop (l.length - 2)) CHARS_LINE_BREAK = true := by
      intro hc
      have hmono : contains_sequence (l.take (l.length - 2) ++ l.drop (l.length - 2) ++ [])
          CHARS_LINE_BREAK = true := contains_sequence_mono _ _ hc
      rw [List.append_nil, List.take_append_drop] at hmono
      rw [hmono] at h
      cases h
    rw [erase_pop h1 h2]
    have hdl : contains_sequence l.dropLast CHARS_LINE_BREAK = false := by
      rcases List.eq_nil_or_concat l with hnil | ⟨l1, x, hl⟩
      · subst hnil
        simp at h1
      · rw [List.concat_eq_append] at hl
        subst hl
        rw [List.dropLast_concat]
        cases hv : contains_sequence l1 CHARS_LINE_BREAK
        · rfl
        · have hmono : contains_sequence ([] ++ l1 ++ [x]) CHARS_LINE_BREAK = true :=
            contains_sequence_mono _ _ hv
          rw [List.nil_append] at hmono
          rw [hmono] at h
          cases h
    exact erase_no_crlf l.dropLast hdl
termination_by l.length
decreasing_by
  simp [List.length_dropLast]
  omega

/-- Fuel-indexed induction for `erase_last_crlf`: erasing a buffer that
decomposes around its last `CR LF` pair keeps exactly the prefix up to and
including that pair. -/
theorem erase_last_crlf_aux (n : Nat) :
    ∀ q : List Nat, q.length ≤ n →
      contains_sequence q CHARS_LINE_BREAK = false →
      ∀ p : List Nat,
        erase_current_line (p ++ CHARS_LINE_BREAK ++ q) = p ++ CHARS_LINE_BREAK := by
  induction n with
  | zero =>
    intro q hlen hq p
    have hnil : q = [] := List.eq_nil_of_length_eq_zero (Nat.le_zero.mp hlen)
    subst hnil
    rw [List.append_nil]
    exact erase_append_crlf p
  | succ n ih =>
    intro q hlen hq p
    rcases List.eq_nil_or_concat q with hnil | ⟨q', x, hqx⟩
    · subst hnil
      rw [List.append_nil]
      exact erase_append_crlf p
    · rw [List.concat_eq_append] at hqx
      subst hqx
      have hq' : contains_sequence q' CHARS_LINE_BREAK = false := by
        cases hv : contains_sequence q' CHARS_LINE_BREAK
        · rfl
        · have hmono : contains_sequence ([] ++ q' ++ [x]) CHARS_LINE_BREAK = true :=
            contains_sequence_mono _ _ hv
          rw [List.nil_append] at hmono
          rw [hmono] at hq
          cases hq
      rcases List.eq_nil_or_concat q' with hnil' | ⟨init, y, hqy⟩
      · subst hnil'
        have hform : p ++ CHARS_LINE_BREAK ++ ([] ++ [x]) = (p ++ [13]) ++ [10, x] := by
          simp [CHARS_LINE_BREAK]
        rw [hform]
        have h1 : ¬ ((p ++ [13]) ++ [10, x]).length < 2 := by
          simp
        have h2 : ¬ contains_sequence
            (((p ++ [13]) ++ [10, x]).drop (((p ++ [13]) ++ [10, x]).length - 2))
            CHARS_LINE_BREAK = true := by
          rw [drop_len_sub_two]
          intro hc
          exact absurd ((contains_sequence_pair 10 x).mp hc).1 (by decide)
        rw [erase_pop h1 h2]
        have hdl : ((p ++ [13]) ++ [10, x]).dropLast = p ++ CHARS_LINE_BREAK := by
          have hsplit : (p ++ [13]) ++ [10, x] = ((p ++ [13]) ++ [10]) ++ [x] := by
            simp
          rw [hsplit, List.dropLast_concat]
          simp [CHARS_LINE_BREAK]
        rw [hdl]
        exact erase_append_crlf p
      · rw [List.concat_eq_append] at hqy
        subst hqy
        have hform : p ++ CHARS_LINE_BREAK ++ ((init ++ [y]) ++ [x]) =
            (p ++ CHARS_LINE_BREAK ++ init) ++ [y, x] := by
          simp
        rw [hform]
        have h1 : ¬ ((p ++ CHARS_LINE_BREAK ++ init) ++ [y, x]).length < 2 := by
          simp only [List.length_append, List.length_cons, List.length_nil, Nat.not_lt]
          omega
        have h2 : ¬ contains_sequence
            (((p ++ CHARS_LINE_BREAK ++ init) ++ [y, x]).drop
              (((p ++ CHARS_LINE_BREAK ++ init) ++ [y, x]).length - 2))
            CHARS_LINE_BREAK = true := by
          rw [drop_len_sub_two]
          intro hc
          obtain ⟨hy, hx⟩ := (contains_sequence_pair y x).mp hc
          subst hy
          subst hx
          have hmono : contains_sequence (init ++ CHARS_LINE_BREAK ++ []) CHARS_LINE_BREAK = true :=
            contains_sequence_mono _ _ (by decide)
          rw [List.append_nil] at hmono
          have hshape : init ++ CHARS_LINE_BREAK = (init ++ [13]) ++ [10] := by
            simp [CHARS_LINE_BREAK]
          rw [hshape] at hmono
          rw [hmono] at hq
          cases hq
        rw [erase_pop h1 h2]
        have hdl : ((p ++ CHARS_LINE_BREAK ++ init) ++ [y, x]).dropLast =
            p ++ CHARS_LINE_BREAK ++ (init ++ [y]) := by
          have hsplit : (p ++ CHARS_LINE_BREAK ++ init) ++ [y, x] =
              ((p ++ CHARS_LINE_BREAK ++ init) ++ [y]) ++ [x] := by
            simp
          rw [hsplit, List.dropLast_concat]
          simp
        rw [hdl]
        apply ih (init ++ [y]) _ hq' p
        have hlen' : ((init ++ [y]) ++ [x]).length ≤ n + 1 := hlen
        simp at hlen' ⊢
        omega

/-- When the buffer decomposes around its last `CR LF` pair, erasing keeps
exactly the prefix up to and including that pair. -/
theorem erase_last_crlf (q : List Nat)
    (hq : contains_sequence q CHARS_LINE_BREAK = false) (p : List Nat) :
    erase_current_line (p ++ CHARS_LINE_BREAK ++ q) = p ++ CHARS_LINE_BREAK :=
  erase_last_crlf_aux q.length q le_rfl hq p

/-- Fuel-indexed induction for `crlf_decomp`. -/
theorem crlf_decomp_aux (n : Nat) :
    ∀ l : List Nat, l.length ≤ n →
      contains_sequence l CHARS_LINE_BREAK = true →
      ∃ p q, l = p ++ CHARS_LINE_BREAK ++ q ∧
        contains_sequence q CHARS_LINE_BREAK = false := by
  induction n with
  | zero =>
    intro l hlen h
    have hnil : l = [] := List.eq_nil_of_length_eq_zero (Nat.le_zero.mp hlen)
    subst hnil
    cases h
  | succ n ih =>
    intro l hlen h
    obtain ⟨p, q, hl⟩ := (contains_sequence_iff _ _).mp h
    by_cases hq : contains_sequence q CHARS_LINE_BREAK = true
    · have hqlen : q.length ≤ n := by
        rw [hl] at hlen
        simp [CHARS_LINE_BREAK] at hlen
        omega
      obtain ⟨p', q', hq', hq''⟩ := ih q hqlen hq
      exact ⟨p ++ CHARS_LINE_BREAK ++ p', q', by simp [hl, hq'], hq''⟩
    · exact ⟨p, q, hl, by simpa using hq⟩

/-- Any buffer containing a `CR LF` pair decomposes around the last one. -/
theorem crlf_decomp (l : List Nat)
    (h : contains_sequence l CHARS_LINE_BREAK = true) :
    ∃ p q, l = p ++ CHARS_LINE_BREAK ++ q ∧
      contains_sequence q CHARS_LINE_BREAK = false :=
  crlf_decomp_aux l.length l le_rfl h

/-- C4: the erase-current-line operation is idempotent: for every byte
buffer, applying `erase_current_line` twice yields the same buffer as
applying it once. -/
theorem erase_current_line_idempotent (buffer : List Nat) :
    erase_current_line (erase_current_line buffer) = erase_current_line buffer := by
  rcases erase_shape buffer with h | ⟨h1, h2⟩
  · rw [h, erase_current_line_nil]
  · have hlt : ¬ (erase_current_line buffer).length < 2 := by omega
    exact erase_stop hlt h2

/-- C5: if the buffer contains an adjacent `CR LF` pair,
`erase_current_line` leaves exactly the prefix ending at the last such
pair (the trailing `CR LF` is preserved, everything after it is removed,
expressed by the decomposition `buf = p ++ CR LF ++ q` with no pair in
`q`); if it contains no `CR LF` pair, `erase_current_line` empties the
buffer.  The third conjunct shows every buffer with a pair admits such a
last-pair decomposition. -/
theorem erase_current_line_last_crlf (buf : List Nat) :
    (contains_sequence buf CHARS_LINE_BREAK = false → erase_current_line buf = [])
    ∧ (∀ p q, buf = p ++ CHARS_LINE_BREAK ++ q →
        contains_sequence q CHARS_LINE_BREAK = false →
        erase_current_line buf = p ++ CHARS_LINE_BREAK)
    ∧ (contains_sequence buf CHARS_LINE_BREAK = true →
        ∃ p q, buf = p ++ CHARS_LINE_BREAK ++ q ∧
          contains_sequence q CHARS_LINE_BREAK = false) := by
  refine ⟨erase_no_crlf buf, ?_, crlf_decomp buf⟩
  rintro p q rfl hq
  exact erase_last_crlf q hq p

/-- Witness for C5 at concrete inputs: erasing `"ab\r\nc"` keeps
`"ab\r\n"`, and erasing `"abc"` (no `CR LF`) empties the buffer. -/
theorem erase_current_line_last_crlf_witness :
    erase_current_line [97, 98, 13, 10, 99] = [97, 98, 13, 10]
    ∧ erase_current_line [97, 98, 99] = [] :=
  ⟨(erase_current_line_last_crlf [97, 98, 13, 10, 99]).2.1 [97, 98] [99] rfl (by decide),
   (erase_current_line_last_crlf [97, 98, 99]).1 (by decide)⟩

/-! ## Properties of the write loop -/

theorem replyBytes_optOfReply (l : List Nat) : replyBytes (optOfReply l) = l := by
  by_cases h : l = [] <;> simp [optOfReply, replyBytes, h]

/-- The `response` accumulator of the write loop only prepends to the final
reply. -/
theorem writeGo_acc (buf : List Nat) :
    ∀ (s : State) (acc : List Nat),
      writeGo s buf acc =
        match writeGo s buf [] with
        | .error e => .error e
        | .ok (r, s1) => .ok (optOfReply (acc ++ replyBytes r), s1) := by
  induction buf with
  | nil =>
    intro s acc
    simp [writeGo, optOfReply, replyBytes]
  | cons b rest ih =>
    intro s acc
    rcases hnb : nextByte s b with e | ⟨r, s1⟩
    · simp [writeGo, hnb]
    · cases r with
      | some v =>
        simp only [writeGo, hnb]
        rw [ih s1 (acc ++ v), ih s1 ([] ++ v)]
        rcases hrec : writeGo s1 rest [] with e | ⟨r2, s2⟩
        · simp
        · simp [replyBytes_optOfReply, List.append_assoc]
      | none =>
        simp only [writeGo, hnb]
        rw [ih s1 acc]

/-- Processing a concatenation is processing the parts in sequence. -/
theorem writeGo_append (a : List Nat) :
    ∀ (b : List Nat) (s : State) (acc : List Nat),
      writeGo s (a ++ b) acc =
        match writeGo s a acc with
        | .error e => .error e
        | .ok (r, s1) => writeGo s1 b (replyBytes r) := by
  induction a with
  | nil =>
    intro b s acc
    simp [writeGo, replyBytes_optOfReply]
  | cons x a' ih =>
    intro b s acc
    simp only [List.cons_append, writeGo]
    rcases hnb : nextByte s x with e | ⟨r, s1⟩
    · simp [hnb]
    · cases r with
      | some v => simp [hnb, ih]
      | none => simp [hnb, ih]

/-- C10: `State.write` is compositional over input concatenation: if
`write a` succeeds with reply `ra` reaching `s1`, and from there `write b`
succeeds with reply `rb` reaching `s2`, then `write (a ++ b)` succeeds,
reaches `s2`, and returns the concatenation of the two replies
(`optOfReply`/`replyBytes` encode `None` as the empty reply). -/
theorem write_append_compositional (s : State) (a b : List Nat)
    (ra rb : Option (List Nat)) (s1 s2 : State)
    (ha : write s a = .ok (ra, s1)) (hb : write s1 b = .ok (rb, s2)) :
    write s (a ++ b) = .ok (optOfReply (replyBytes ra ++ replyBytes rb), s2) := by
  unfold write at ha hb ⊢
  rw [writeGo_append a b s [], ha]
  show writeGo s1 b (replyBytes ra) = _
  rw [writeGo_acc b s1 (replyBytes ra), hb]

/-- Witness for C10: IAC DO ECHO followed by the byte `h`, fed in two
writes or one, produce the same combined reply and state. -/
theorem write_append_compositional_witness :
    write (State.new ⟨false⟩) ([255, 253, 1] ++ [104]) =
      .ok (optOfReply (replyBytes (some [255, 251, 1]) ++ replyBytes (some [104])),
        ⟨[104], Mode.Idle, true, false⟩) :=
  write_append_compositional (State.new ⟨false⟩) [255, 253, 1] [104]
    (some [255, 251, 1]) (some [104]) ⟨[], Mode.Idle, true, false⟩
    ⟨[104], Mode.Idle, true, false⟩ (by decide) (by decide)

/-! ## Error characterization of write -/

theorem next_on_idle_no_error (s : State) (b : Nat) (e : Error) :
    next_on_idle s b ≠ .error e := by
  unfold next_on_idle
  dsimp only
  split_ifs <;> exact fun h => Except.noConfusion h

theorem next_as_escape_sequence_no_error (s : State) (b : Nat) (e : Error) :
    next_as_escape_sequence s b ≠ .error e := by
  unfold next_as_escape_sequence
  dsimp only
  split_ifs <;> exact fun h => Except.noConfusion h

theorem next_as_do_no_error (s : State) (b : Nat) (e : Error) :
    next_as_do s b ≠ .error e := by
  unfold next_as_do
  dsimp only
  split_ifs <;> exact fun h => Except.noConfusion h

theorem next_as_command_error (s : State) (b : Nat) (h : ¬ cmdAllowed b) :
    next_as_command s b = .error ⟨ErrorKind.InvalidInput, b⟩ := by
  unfold cmdAllowed at h
  push_neg at h
  obtain ⟨h1, h2, h3, h4, h5⟩ := h
  unfold next_as_command
  simp [h1, h2, h3, h4, h5]

theorem next_as_command_no_error_of_allowed (s : State) (b : Nat)
    (h : cmdAllowed b) (e : Error) : next_as_command s b ≠ .error e := by
  unfold next_as_command
  rcases h with h | h | h | h | h <;>
    simp [h, IAC_WILL, IAC_WONT, IAC_DO, IAC_DONT, IAC_SUBNEGOTIATION_START]

/-- The only failing transition of the state machine: a byte in `Command`
mode that is not an accepted command byte, reported as `InvalidInput`
naming that byte. -/
theorem nextByte_error_cases (s : State) (b : Nat) (e : Error)
    (h : nextByte s b = .error e) :
    s.mode = Mode.Command ∧ ¬ cmdAllowed b ∧ e = ⟨ErrorKind.InvalidInput, b⟩ := by
  cases hm : s.mode <;> simp only [nextByte, hm] at h
  case Idle => exact absurd h (next_on_idle_no_error s b e)
  case Command =>
    by_cases hc : cmdAllowed b
    · exact absurd h (next_as_command_no_error_of_allowed s b hc e)
    · have hE := next_as_command_error s b hc
      rw [hE] at h
      injection h with h'
      exact ⟨rfl, hc, h'.symm⟩
  case CommandWill => exact Except.noConfusion h
  case CommandWont => exact Except.noConfusion h
  case CommandDo => exact absurd h (next_as_do_no_error s b e)
  case CommandDont => exact Except.noConfusion h
  case SubNegotiation =>
    unfold next_as_sub_negotiation at h
    split_ifs at h
  case AnsiEscapeSequence => exact absurd h (next_as_escape_sequence_no_error s b e)

theorem nextByte_ok_total (s : State) (b : Nat)
    (h : ¬ (s.mode = Mode.Command ∧ ¬ cmdAllowed b)) :
    ∃ r s1, nextByte s b = .ok (r, s1) := by
  rcases hnb : nextByte s b with e | ⟨r, s1⟩
  · obtain ⟨h1, h2, -⟩ := nextByte_error_cases s b e hnb
    exact absurd ⟨h1, h2⟩ h
  · exact ⟨r, s1, rfl⟩

theorem writeGo_error_iff (buf : List Nat) :
    ∀ (s : State) (acc : List Nat),
      (∃ e, writeGo s buf acc = .error e) ↔ consumesBadCommandByte s buf = true := by
  induction buf with
  | nil =>
    intro s acc
    simp [writeGo, consumesBadCommandByte]
  | cons b rest ih =>
    intro s acc
    by_cases hbad : s.mode = Mode.Command ∧ ¬ cmdAllowed b
    · have hE : nextByte s b = .error ⟨ErrorKind.InvalidInput, b⟩ := by
        simp only [nextByte, hbad.1]
        exact next_as_command_error s b hbad.2
      constructor
      · intro _
        simp [consumesBadCommandByte, hbad]
      · intro _
        exact ⟨⟨ErrorKind.InvalidInput, b⟩, by simp [writeGo, hE]⟩
    · obtain ⟨r, s1, hok⟩ := nextByte_ok_total s b hbad
      have hcons : consumesBadCommandByte s (b :: rest) = consumesBadCommandByte s1 rest := by
        simp [consumesBadCommandByte, hbad, hok]
      rw [hcons]
      cases r with
      | some v =>
        rw [show writeGo s (b :: rest) acc = writeGo s1 rest (acc ++ v) from by
          simp [writeGo, hok]]
        exact ih s1 (acc ++ v)
      | none =>
        rw [show writeGo s (b :: rest) acc = writeGo s1 rest acc from by
          simp [writeGo, hok]]
        exact ih s1 acc

theorem writeGo_error_kind (buf : List Nat) :
    ∀ (s : State) (acc : List Nat) (e : Error),
      writeGo s buf acc = .error e → e.kind = ErrorKind.InvalidInput := by
  induction buf with
  | nil =>
    intro s acc e h
    simp [writeGo] at h
  | cons b rest ih =>
    intro s acc e h
    rcases hnb : nextByte s b with e0 | ⟨r, s1⟩
    · simp only [writeGo, hnb] at h
      injection h with h'
      obtain ⟨-, -, he⟩ := nextByte_error_cases s b e0 hnb
      have : e = ⟨ErrorKind.InvalidInput, b⟩ := by rw [← h', he]
      rw [this]
    · cases r with
      | some v =>
        simp only [writeGo, hnb] at h
        exact ih s1 (acc ++ v) e h
      | none =>
        simp only [writeGo, hnb] at h
        exact ih s1 acc e h

/-- C3: `State.write(buf)` returns an error iff, processing `buf` byte by
byte from the initial state, some byte is consumed in `Command` mode (i.e.
immediately follows an `IAC`) and is not one of `IAC_WILL`, `IAC_WONT`,
`IAC_DO`, `IAC_DONT`, `IAC_SB`; the error has kind `InvalidInput`; and on
error no reply bytes are returned, which the model makes structural (the
`error` constructor carries no bytes) and the final conjunct shows on an
input whose earlier bytes earned the reply `[255, 251, 1]` that is then
dropped. -/
theorem write_error_characterization :
    (∀ (s : State) (buf : List Nat),
      (∃ e, write s buf = .error e) ↔ consumesBadCommandByte s buf = true)
    ∧ (∀ (s : State) (buf : List Nat) (e : Error),
        write s buf = .error e → e.kind = ErrorKind.InvalidInput)
    ∧ write (State.new ⟨false⟩) [255, 253, 1, 255, 99] =
        .error ⟨ErrorKind.InvalidInput, 99⟩ :=
  ⟨fun s buf => writeGo_error_iff buf s [],
   fun s buf e h => writeGo_error_kind buf s [] e h,
   by decide⟩

/-- Witness for C3 at the concrete input `[255, 99]` on a fresh state. -/
theorem write_error_characterization_witness :
    (⟨ErrorKind.InvalidInput, 99⟩ : Error).kind = ErrorKind.InvalidInput
    ∧ consumesBadCommandByte (State.new ⟨false⟩) [255, 99] = true :=
  ⟨write_error_characterization.2.1 (State.new ⟨false⟩) [255, 99]
      ⟨ErrorKind.InvalidInput, 99⟩ (by decide),
   (write_error_characterization.1 (State.new ⟨false⟩) [255, 99]).mp
      ⟨⟨ErrorKind.InvalidInput, 99⟩, by decide⟩⟩

/-! ## Pure payload processing -/

/-- A byte that is neither `IAC`, `ESC`, an editing control, nor
`ERASE_LINE` is simply appended to the buffer; with echoing off it earns no
reply. -/
theorem writeGo_payload (cfg : Bool) :
    ∀ seq : List Nat,
      (∀ b ∈ seq, b ≠ IAC ∧ b ≠ CHAR_ESCAPE ∧ b ≠ CHAR_BACK_SPACE ∧
        b ≠ CHAR_DELETE ∧ b ≠ CHAR_ERASE ∧ b ≠ ERASE_LINE) →
      ∀ buf acc : List Nat,
        writeGo ⟨buf, Mode.Idle, false, cfg⟩ seq acc =
          .ok (optOfReply acc, ⟨buf ++ seq, Mode.Idle, false, cfg⟩) := by
  intro seq
  induction seq with
  | nil =>
    intro _ buf acc
    simp [writeGo]
  | cons b rest ih =>
    intro h buf acc
    obtain ⟨h1, h2, h3, h4, h5, h6⟩ := h b (List.mem_cons_self b rest)
    have hnb : nextByte ⟨buf, Mode.Idle, false, cfg⟩ b =
        .ok (none, ⟨buf ++ [b], Mode.Idle, false, cfg⟩) := by
      simp only [nextByte]
      unfold next_on_idle
      dsimp only
      simp [h1, h2, h3, h4, h5, h6]
    simp only [writeGo, hnb]
    rw [ih (fun x hx => h x (List.mem_cons_of_mem _ hx)) (buf ++ [b]) acc]
    simp

/-- C6: payload round-trip: for every byte sequence containing no `IAC`,
no `ESC`, and none of `BS`, `DEL`, `CHAR_ERASE`, `ERASE_LINE`, feeding it
to `write` on a freshly constructed `State` succeeds (with no reply and
the sequence appended to the buffer), and then draining via `read` returns
exactly the sequence. -/
theorem payload_roundtrip (cfg : Bool) (seq : List Nat)
    (h : ∀ b ∈ seq, b ≠ IAC ∧ b ≠ CHAR_ESCAPE ∧ b ≠ CHAR_BACK_SPACE ∧
      b ≠ CHAR_DELETE ∧ b ≠ CHAR_ERASE ∧ b ≠ ERASE_LINE) :
    write (State.new ⟨cfg⟩) seq = .ok (none, ⟨seq, Mode.Idle, false, cfg⟩)
    ∧ read ⟨seq, Mode.Idle, false, cfg⟩ (List.replicate seq.length 0) =
        .ok (seq.length, seq, ⟨[], Mode.Idle, false, cfg⟩) := by
  constructor
  · unfold write
    show writeGo ⟨[], Mode.Idle, false, cfg⟩ seq [] = _
    rw [writeGo_payload cfg seq h [] []]
    simp [optOfReply]
  · unfold read
    dsimp only
    simp

/-- Witness for C6 with the two-byte payload `hi`. -/
theorem payload_roundtrip_witness :
    write (State.new ⟨false⟩) [104, 105] =
      .ok (none, ⟨[104, 105], Mode.Idle, false, false⟩)
    ∧ read ⟨[104, 105], Mode.Idle, false, false⟩ (List.replicate 2 0) =
        .ok (2, [104, 105], ⟨[], Mode.Idle, false, false⟩) :=
  payload_roundtrip false [104, 105] (by decide)

/-! ## The option-negotiation and sub-negotiation modes -/

/-- C7: in `CommandDo` mode the option byte is consumed and the mode
returns to `Idle`; `DO ECHO` turns echoing on and is confirmed with
`IAC IAC_WILL ECHO`, any other option is refused with `IAC IAC_WONT opt`
and `is_echoing` is unchanged; and on a fresh state
`write [255, 253, 1]` replies `[255, 251, 1]` leaving the buffer empty. -/
theorem command_do_spec (s : State) (opt : Nat) (h : s.mode = Mode.CommandDo) :
    (opt = ECHO → nextByte s opt =
      .ok (some [IAC, IAC_WILL, ECHO], { s with mode := Mode.Idle, is_echoing := true }))
    ∧ (opt ≠ ECHO → nextByte s opt =
      .ok (some [IAC, IAC_WONT, opt], { s with mode := Mode.Idle }))
    ∧ (∀ cfg : Bool, write (State.new ⟨cfg⟩) [255, 253, 1] =
        .ok (some [255, 251, 1], ⟨[], Mode.Idle, true, cfg⟩)) := by
  refine ⟨?_, ?_, ?_⟩
  · intro ho
    simp only [nextByte, h]
    unfold next_as_do
    dsimp only
    simp [ho]
  · intro ho
    simp only [nextByte, h]
    unfold next_as_do
    dsimp only
    simp [ho]
  · intro cfg
    cases cfg <;> decide

/-- Witness for C7: option 42 in `CommandDo` mode is refused. -/
theorem command_do_spec_witness :
    nextByte ⟨[], Mode.CommandDo, false, false⟩ 42 =
      .ok (some [IAC, IAC_WONT, 42], ⟨[], Mode.Idle, false, false⟩) :=
  (command_do_spec ⟨[], Mode.CommandDo, false, false⟩ 42 rfl).2.1 (by decide)

/-- C8: in `SubNegotiation` mode every byte other than `IAC_SE` (240) is
consumed with no reply and no state change (in particular no buffer or
mode change); the first byte equal to 240, even without a preceding `IAC`,
returns the mode to `Idle` with no reply.  On a fresh state the
sub-negotiation `[255, 250, 24, 0, 88, 255, 240, 65]` produces no reply
and leaves only `[65]` in the buffer. -/
theorem sub_negotiation_spec (s : State) (b : Nat) (h : s.mode = Mode.SubNegotiation) :
    (b ≠ IAC_SUBNEGOTIATION_END → nextByte s b = .ok (none, s))
    ∧ (b = IAC_SUBNEGOTIATION_END → nextByte s b = .ok (none, { s with mode := Mode.Idle }))
    ∧ write (State.new ⟨false⟩) [255, 250, 24, 0, 88, 255, 240, 65] =
        .ok (none, ⟨[65], Mode.Idle, false, false⟩) := by
  refine ⟨?_, ?_, by decide⟩
  · intro hb
    simp only [nextByte, h]
    unfold next_as_sub_negotiation
    simp [hb]
  · intro hb
    simp only [nextByte, h]
    unfold next_as_sub_negotiation
    simp [hb]

/-- Witness for C8: the byte 5 is discarded in `SubNegotiation` mode. -/
theorem sub_negotiation_spec_witness :
    nextByte ⟨[7], Mode.SubNegotiation, false, false⟩ 5 =
      .ok (none, ⟨[7], Mode.SubNegotiation, false, false⟩) :=
  (sub_negotiation_spec ⟨[7], Mode.SubNegotiation, false, false⟩ 5 rfl).1 (by decide)

/-! ## The read side -/

/-- C9: `State.read(dst)` always succeeds, returns
`n = min (len dst) (len output_buffer)`, writes exactly the first `n`
bytes of `output_buffer` into the first `n` positions of `dst` (the rest
of `dst` untouched), removes exactly those `n` bytes from the head of
`output_buffer` leaving the remainder unchanged, and returns 0 when the
buffer is empty. -/
theorem read_spec (s : State) (dst : List Nat) :
    read s dst = .ok (min dst.length s.output_buffer.length,
      s.output_buffer.take (min dst.length s.output_buffer.length) ++
        dst.drop (min dst.length s.output_buffer.length),
      { s with output_buffer :=
          s.output_buffer.drop (min dst.length s.output_buffer.length) })
    ∧ (s.output_buffer.take (min dst.length s.output_buffer.length)).length
        = min dst.length s.output_buffer.length
    ∧ s.output_buffer.take (min dst.length s.output_buffer.length) ++
        s.output_buffer.drop (min dst.length s.output_buffer.length) = s.output_buffer
    ∧ (s.output_buffer = [] → min dst.length s.output_buffer.length = 0) := by
  refine ⟨rfl, ?_, List.take_append_drop _ _, ?_⟩
  · simp only [List.length_take]
    omega
  · intro hb
    rw [hb]
    simp

/-- Witness for C9 on a three-byte buffer with a two-byte destination, and
on an empty buffer. -/
theorem read_spec_witness :
    read (⟨[1, 2, 3], Mode.Idle, false, false⟩ : State) [9, 9] =
      .ok (2, [1, 2], ⟨[3], Mode.Idle, false, false⟩)
    ∧ read (⟨[], Mode.Idle, false, false⟩ : State) [9, 9] =
      .ok (0, [9, 9], ⟨[], Mode.Idle, false, false⟩)
    ∧ min ([9, 9] : List Nat).length ([] : List Nat).length = 0 :=
  ⟨(read_spec ⟨[1, 2, 3], Mode.Idle, false, false⟩ [9, 9]).1,
   (read_spec ⟨[], Mode.Idle, false, false⟩ [9, 9]).1,
   (read_spec ⟨[], Mode.Idle, false, false⟩ [9, 9]).2.2.2 rfl⟩

/-! ## Buffer cleanliness -/

/-- Exhaustive description of how one transition can change the buffer:
it is left alone, popped, line-erased, or extended by the consumed byte;
an extension byte is never `IAC` or `ESC` when ANSI handling is off.  The
configuration flag never changes. -/
theorem nextByte_ok_inv (s : State) (b : Nat) (r : Option (List Nat)) (s1 : State)
    (h : nextByte s b = .ok (r, s1)) :
    s1.handle_ansi_escape_sequences = s.handle_ansi_escape_sequences
    ∧ (s1.output_buffer = s.output_buffer
       ∨ s1.output_buffer = s.output_buffer.dropLast
       ∨ s1.output_buffer = erase_current_line s.output_buffer
       ∨ (s1.output_buffer = s.output_buffer ++ [b]
          ∧ (s.handle_ansi_escape_sequences = false → b ≠ IAC ∧ b ≠ CHAR_ESCAPE))) := by
  cases hm : s.mode <;> simp only [nextByte, hm] at h
  case Idle =>
    unfold next_on_idle at h
    dsimp only at h
    split_ifs at h with h1 h2 h3 h4 h5 h6 h7 h8 h9
    · injection h with h'
      injection h' with hr hs
      subst hs
      exact ⟨rfl, Or.inl rfl⟩
    · injection h with h'
      injection h' with hr hs
      subst hs
      exact ⟨rfl, Or.inr (Or.inl rfl)⟩
    · injection h with h'
      injection h' with hr hs
      subst hs
      exact ⟨rfl, Or.inr (Or.inl rfl)⟩
    · injection h with h'
      injection h' with hr hs
      subst hs
      exact ⟨rfl, Or.inr (Or.inr (Or.inl rfl))⟩
    · injection h with h'
      injection h' with hr hs
      subst hs
      exact ⟨rfl, Or.inr (Or.inr (Or.inl rfl))⟩
    · injection h with h'
      injection h' with hr hs
      subst hs
      exact ⟨rfl, Or.inl rfl⟩
    · injection h with h'
      injection h' with hr hs
      subst hs
      refine ⟨rfl, Or.inr (Or.inr (Or.inr ⟨rfl, fun hf => ?_⟩))⟩
      rw [hf] at h8
      exact absurd h8 (by decide)
    · injection h with h'
      injection h' with hr hs
      subst hs
      exact ⟨rfl, Or.inl rfl⟩
    · injection h with h'
      injection h' with hr hs
      subst hs
      exact ⟨rfl, Or.inr (Or.inr (Or.inr
        ⟨rfl, fun _ => ⟨by assumption, by assumption⟩⟩))⟩
    · injection h with h'
      injection h' with hr hs
      subst hs
      exact ⟨rfl, Or.inr (Or.inr (Or.inr
        ⟨rfl, fun _ => ⟨by assumption, by assumption⟩⟩))⟩
  case Command =>
    unfold next_as_command at h
    split_ifs at h <;>
      (injection h with h'
       injection h' with hr hs
       subst hs
       exact ⟨rfl, Or.inl rfl⟩)
  case CommandWill =>
    unfold next_as_will at h
    injection h with h'
    injection h' with hr hs
    subst hs
    exact ⟨rfl, Or.inl rfl⟩
  case CommandWont =>
    unfold next_as_wont at h
    injection h with h'
    injection h' with hr hs
    subst hs
    exact ⟨rfl, Or.inl rfl⟩
  case CommandDo =>
    unfold next_as_do at h
    dsimp only at h
    split_ifs at h <;>
      (injection h with h'
       injection h' with hr hs
       subst hs
       exact ⟨rfl, Or.inl rfl⟩)
  case CommandDont =>
    unfold next_as_dont at h
    dsimp only at h
    split_ifs at h <;>
      (injection h with h'
       injection h' with hr hs
       subst hs
       exact ⟨rfl, Or.inl rfl⟩)
  case SubNegotiation =>
    unfold next_as_sub_negotiation at h
    split_ifs at h <;>
      (injection h with h'
       injection h' with hr hs
       subst hs
       exact ⟨rfl, Or.inl rfl⟩)
  case AnsiEscapeSequence =>
    unfold next_as_escape_sequence at h
    dsimp only at h
    split_ifs at h with hH hEnd hEcho hEcho2 hEnd2 <;>
      (injection h with h'
       injection h' with hr hs
       subst hs)
    · refine ⟨rfl, Or.inr (Or.inr (Or.inr ⟨rfl, fun hf => ?_⟩))⟩
      rw [hf] at hH
      exact absurd hH (by decide)
    · refine ⟨rfl, Or.inr (Or.inr (Or.inr ⟨rfl, fun hf => ?_⟩))⟩
      rw [hf] at hH
      exact absurd hH (by decide)
    · refine ⟨rfl, Or.inr (Or.inr (Or.inr ⟨rfl, fun hf => ?_⟩))⟩
      rw [hf] at hH
      exact absurd hH (by decide)
    · refine ⟨rfl, Or.inr (Or.inr (Or.inr ⟨rfl, fun hf => ?_⟩))⟩
      rw [hf] at hH
      exact absurd hH (by decide)
    · exact ⟨rfl, Or.inl rfl⟩
    · exact ⟨rfl, Or.inl rfl⟩

/-- The write loop preserves the configuration flag and the cleanliness
invariant. -/
theorem writeGo_handle_clean (buf : List Nat) :
    ∀ (s : State) (acc : List Nat) (r : Option (List Nat)) (s1 : State),
      writeGo s buf acc = .ok (r, s1) →
        s1.handle_ansi_escape_sequences = s.handle_ansi_escape_sequences
        ∧ (cleanBuffer s → cleanBuffer s1) := by
  induction buf with
  | nil =>
    intro s acc r s1 h
    simp [writeGo] at h
    obtain ⟨-, h2⟩ := h
    subst h2
    exact ⟨rfl, id⟩
  | cons b rest ih =>
    intro s acc r s1 h
    rcases hnb : nextByte s b with e | ⟨r0, s2⟩
    · simp [writeGo, hnb] at h
    · obtain ⟨hh, hbuf⟩ := nextByte_ok_inv s b r0 s2 hnb
      have hclean : cleanBuffer s → cleanBuffer s2 := by
        intro hc hf x hx
        have hsf : s.handle_ansi_escape_sequences = false := by
          rw [← hh]
          exact hf
        rcases hbuf with h0 | h0 | h0 | ⟨h0, himp⟩
        · rw [h0] at hx
          exact hc hsf x hx
        · rw [h0] at hx
          exact hc hsf x ((List.dropLast_sublist _).subset hx)
        · rw [h0] at hx
          exact hc hsf x (erase_subset _ x hx)
        · rw [h0] at hx
          rcases List.mem_append.mp hx with hx' | hx'
          · exact hc hsf x hx'
          · have hxb : x = b := by simpa using hx'
            subst hxb
            exact himp hsf
      cases r0 with
      | some v =>
        simp only [writeGo, hnb] at h
        obtain ⟨hh2, hc2⟩ := ih s2 (acc ++ v) r s1 h
        exact ⟨hh2.trans hh, fun hc => hc2 (hclean hc)⟩
      | none =>
        simp only [writeGo, hnb] at h
        obtain ⟨hh2, hc2⟩ := ih s2 acc r s1 h
        exact ⟨hh2.trans hh, fun hc => hc2 (hclean hc)⟩

/-- C2 (amended): bytes consumed by WILL/WONT/DO/DONT commands never reach
`output_buffer` (for either configuration); when
`handle_ansi_escape_sequences` is false, any successful `write` on a fresh
state leaves a buffer with no `IAC` and no `ESC` byte, and bytes consumed
in `AnsiEscapeSequence` mode are never appended; when it is true, bytes
consumed in `AnsiEscapeSequence` mode (which may include `IAC = 255`) are
appended verbatim. -/
theorem output_buffer_clean :
    (∀ (buf : List Nat) (r : Option (List Nat)) (s' : State),
        write (State.new ⟨false⟩) buf = .ok (r, s') →
        ∀ b ∈ s'.output_buffer, b ≠ IAC ∧ b ≠ CHAR_ESCAPE)
    ∧ (∀ (s : State) (b : Nat) (r : Option (List Nat)) (s' : State),
        s.mode = Mode.CommandWill ∨ s.mode = Mode.CommandWont ∨
          s.mode = Mode.CommandDo ∨ s.mode = Mode.CommandDont →
        nextByte s b = .ok (r, s') → s'.output_buffer = s.output_buffer)
    ∧ (∀ (s : State) (b : Nat) (r : Option (List Nat)) (s' : State),
        s.handle_ansi_escape_sequences = false → s.mode = Mode.AnsiEscapeSequence →
        nextByte s b = .ok (r, s') → s'.output_buffer = s.output_buffer)
    ∧ (∀ (s : State) (b : Nat) (r : Option (List Nat)) (s' : State),
        s.handle_ansi_escape_sequences = true → s.mode = Mode.AnsiEscapeSequence →
        nextByte s b = .ok (r, s') → s'.output_buffer = s.output_buffer ++ [b]) := by
  refine ⟨?_, ?_, ?_, ?_⟩
  · intro buf r s' hw b hb
    have hnew : cleanBuffer (State.new ⟨false⟩) := by
      intro _ x hx
      simp [State.new] at hx
    obtain ⟨hh, hcl⟩ := writeGo_handle_clean buf (State.new ⟨false⟩) [] r s' hw
    exact hcl hnew (by rw [hh]; rfl) b hb
  · intro s b r s' hm h
    rcases hm with hm | hm | hm | hm <;> simp only [nextByte, hm] at h
    · unfold next_as_will at h
      injection h with h'
      injection h' with hr hs
      subst hs
      rfl
    · unfold next_as_wont at h
      injection h with h'
      injection h' with hr hs
      subst hs
      rfl
    · unfold next_as_do at h
      dsimp only at h
      split_ifs at h <;>
        (injection h with h'
         injection h' with hr hs
         subst hs
         rfl)
    · unfold next_as_dont at h
      dsimp only at h
      split_ifs at h <;>
        (injection h with h'
         injection h' with hr hs
         subst hs
         rfl)
  · intro s b r s' hH hm h
    simp only [nextByte, hm] at h
    unfold next_as_escape_sequence at h
    rw [hH] at h
    dsimp only at h
    split_ifs at h <;>
      first
        | (injection h with h'
           injection h' with hr hs
           subst hs
           rfl)
        | simp_all
  · intro s b r s' hH hm h
    simp only [nextByte, hm] at h
    unfold next_as_escape_sequence at h
    rw [hH] at h
    dsimp only at h
    split_ifs at h <;>
      first
        | (injection h with h'
           injection h' with hr hs
           subst hs
           rfl)
        | simp_all

/-- Counterexample to C2 as stated: with ANSI handling enabled, the `IAC`
byte 255 fed inside an escape sequence (input `[27, 255]`) is retained in
`output_buffer`. -/
theorem output_buffer_iac_counterexample :
    ¬ (∀ (r : Option (List Nat)) (s' : State),
        write (State.new ⟨true⟩) [27, 255] = Except.ok (r, s') →
        ∀ b ∈ s'.output_buffer, b ≠ IAC) := by
  intro hclaim
  have h255 := hclaim none ⟨[27, 255], Mode.AnsiEscapeSequence, false, true⟩
    (by decide) 255 (by decide)
  exact h255 rfl

/-- Witness for C2 (amended): each conjunct applied at a concrete input. -/
theorem output_buffer_clean_witness :
    ((104 : Nat) ≠ IAC ∧ (104 : Nat) ≠ CHAR_ESCAPE)
    ∧ (⟨[9], Mode.Idle, false, false⟩ : State).output_buffer =
        (⟨[9], Mode.CommandWill, false, false⟩ : State).output_buffer
    ∧ (⟨[9], Mode.Idle, false, false⟩ : State).output_buffer =
        (⟨[9], Mode.AnsiEscapeSequence, false, false⟩ : State).output_buffer
    ∧ (⟨[9, 255], Mode.AnsiEscapeSequence, false, true⟩ : State).output_buffer =
        (⟨[9], Mode.AnsiEscapeSequence, false, true⟩ : State).output_buffer ++ [255] :=
  ⟨output_buffer_clean.1 [104] none ⟨[104], Mode.Idle, false, false⟩ (by decide)
      104 (by decide),
   output_buffer_clean.2.1 ⟨[9], Mode.CommandWill, false, false⟩ 3 none
      ⟨[9], Mode.Idle, false, false⟩ (Or.inl rfl) (by decide),
   output_buffer_clean.2.2.1 ⟨[9], Mode.AnsiEscapeSequence, false, false⟩ 51 none
      ⟨[9], Mode.AnsiEscapeSequence, false, false⟩ rfl rfl (by decide),
   output_buffer_clean.2.2.2 ⟨[9], Mode.AnsiEscapeSequence, false, true⟩ 255 none
      ⟨[9, 255], Mode.AnsiEscapeSequence, false, true⟩ rfl rfl (by decide)⟩

/-! ## The escape byte under echo -/

/-- C1 (code behaviour at the failing input): in `Idle` mode the byte
`ESC = 27` sets the mode to `AnsiEscapeSequence`, and with echoing on the
reply is `[27]` — but the early return of the echo branch skips the
`handle_ansi_escape_sequences` push, so `ESC` is NOT appended to
`output_buffer` even though `handle_ansi_escape_sequences` is true (first
conjunct: after `DO ECHO`, the buffer stays empty).  The second conjunct
shows the same configuration without echo does append `ESC`. -/
theorem escape_echo_skips_output_buffer :
    write (State.new ⟨true⟩) [255, 253, 1, 27] =
      .ok (some [255, 251, 1, 27], ⟨[], Mode.AnsiEscapeSequence, true, true⟩)
    ∧ write (State.new ⟨true⟩) [27] =
      .ok (none, ⟨[27], Mode.AnsiEscapeSequence, false, true⟩) :=
  ⟨by decide, by decide⟩

end Telnet
